import Mathlib

/-
Verification of the Qudit-State-Transitions repository.

Shallow embedding of src/statetrans.py (a Dijkstra-style best-first search
over an implicit state space) and of the domain transitions x and subswap
from src/qutrit_ghz_example.py, together with theorems settling the frozen
claims about them.

Modelling conventions:
  * Python tuples of strings become Lean lists; a basis string becomes a
    List Char so that indexing and slicing are explicit.
  * The search state type is an arbitrary type with decidable equality,
    mirroring the spec's opaque hashable/equatable State.
  * The Python dict of transitions becomes an insertion-ordered association
    list; dict iteration order is its list order, and dict keys are unique,
    which theorems take as a Nodup hypothesis where it matters.
  * The while loop of the search is not structurally recursive; it is
    embedded with an explicit fuel parameter, none meaning the fuel ran out
    before the loop finished.
  * Python ints are Lean Int.
  * heapq is modelled by its documented contract: heappush adds an item to
    the pool, heappop removes and returns a smallest item, where heapnode
    ordering compares costs only.  Among equal-cost items CPython's concrete
    tie-break is unspecified by that contract (the spec calls the pop order
    among ties implementation-defined); the model pops the earliest-pushed
    minimal-cost node, one fixed deterministic choice.
-/

set_option maxHeartbeats 1000000

namespace StateTrans

/-- A path is a sequence of transition names (source: Path = Tuple[str, ...]). -/
abbrev Path := List String

/-- Node in Dijkstra's search graph (source: class heapnode).  Its Python
comparison methods order nodes by cost alone; the cost is a Python int. -/
structure heapnode (σ : Type) where
  state : σ
  path : Path
  cost : Int
deriving DecidableEq

/-- Models Python heapq.heappush on the frontier list: the new node joins the
pool of pending nodes.  The min-ordering of the heap is realized in heappop. -/
def heappush {σ : Type} (frontier : List (heapnode σ)) (nd : heapnode σ) :
    List (heapnode σ) :=
  frontier ++ [nd]

/-- Scans a list of heap nodes carrying the best (minimal-cost, earliest) node
seen so far; returns the minimal node and the list of the remaining nodes. -/
def popMinAux {σ : Type} (best : heapnode σ) :
    List (heapnode σ) → heapnode σ × List (heapnode σ)
  | [] => (best, [])
  | nd :: rest =>
    if nd.cost < best.cost then
      ((popMinAux nd rest).1, best :: (popMinAux nd rest).2)
    else
      ((popMinAux best rest).1, nd :: (popMinAux best rest).2)

/-- Models Python heapq.heappop: removes and returns the smallest item of the
frontier, smallest meaning minimal heapnode cost.  Returns none on an empty
frontier (there heappop would raise IndexError; the search loop never calls
it on an empty frontier). -/
def heappop {σ : Type} : List (heapnode σ) → Option (heapnode σ × List (heapnode σ))
  | [] => none
  | nd :: rest => some (popMinAux nd rest)

/-- The visited mapping of the search: a Python dict from states to paths,
modelled as an insertion-ordered association list. -/
abbrev Visited (σ : Type) := List (σ × Path)

/-- Models the Python dict membership test node.state in visited. -/
def visitedMem {σ : Type} [DecidableEq σ] (visited : Visited σ) (s : σ) : Bool :=
  visited.any (fun e => decide (e.1 = s))

/-- One pass of the source's for name, transition in transitions.items() loop:
for each table entry, the successor state is computed and, when it is not yet
visited, a node carrying the extended path and its cost is pushed. -/
def expand {σ : Type} [DecidableEq σ] (transitions : List (String × (σ → σ)))
    (visited : Visited σ) (node : heapnode σ) (cost : Path → Int)
    (frontier : List (heapnode σ)) : List (heapnode σ) :=
  transitions.foldl
    (fun fr tf =>
      if visitedMem visited (tf.2 node.state) then fr
      else heappush fr
        ⟨tf.2 node.state, node.path ++ [tf.1], cost (node.path ++ [tf.1])⟩)
    frontier

/-- The mutable locals of one search invocation: the visited dict and the
frontier heap. -/
structure SearchState (σ : Type) where
  visited : Visited σ
  frontier : List (heapnode σ)
deriving DecidableEq

/-- Result of a finished search: either a path (the Python return) or the
distinguished no-solution outcome (the Python raise RuntimeError). -/
inductive SearchOutcome where
  | found : Path → SearchOutcome
  | noSolution : SearchOutcome
deriving DecidableEq

/-- Result of one loop iteration: the loop either finishes with an outcome or
continues with updated visited/frontier. -/
inductive StepRes (σ : Type) where
  | done : SearchOutcome → StepRes σ
  | next : SearchState σ → StepRes σ
deriving DecidableEq

/-- One iteration of the source's while len(frontier) > 0 loop: on an empty
frontier the loop exits and the function raises RuntimeError (No solution
found.), modelled as the done noSolution outcome.  Otherwise the minimal-cost
node is popped; an already-visited state is discarded; a fresh state is
recorded in visited, returned when it satisfies success, and expanded
otherwise. -/
def searchStep {σ : Type} [DecidableEq σ] (transitions : List (String × (σ → σ)))
    (success : σ → Bool) (cost : Path → Int) (st : SearchState σ) : StepRes σ :=
  match heappop st.frontier with
  | none => .done .noSolution
  | some (node, rest) =>
    if visitedMem st.visited node.state then
      .next ⟨st.visited, rest⟩
    else
      let visited' := st.visited ++ [(node.state, node.path)]
      if success node.state then
        .done (.found node.path)
      else
        .next ⟨visited', expand transitions visited' node cost rest⟩

/-- The search loop with fuel: iterates searchStep at most fuel times; none
means the fuel ran out before the loop finished on its own. -/
def searchLoop {σ : Type} [DecidableEq σ] (transitions : List (String × (σ → σ)))
    (success : σ → Bool) (cost : Path → Int) :
    Nat → SearchState σ → Option SearchOutcome
  | 0, _ => none
  | fuel + 1, st =>
    match searchStep transitions success cost st with
    | .done r => some r
    | .next st' => searchLoop transitions success cost fuel st'

/-- Performs search from init to success using Dijkstra's algorithm (source:
state_search_via_dijkstras).  Starts with an empty visited dict and a frontier
holding the single node (init_state, empty path, cost of the empty path). -/
def state_search_via_dijkstras {σ : Type} [DecidableEq σ] (fuel : Nat)
    (init_state : σ) (transitions : List (String × (σ → σ)))
    (success : σ → Bool) (cost : Path → Int) : Option SearchOutcome :=
  searchLoop transitions success cost fuel
    ⟨[], heappush [] ⟨init_state, [], cost []⟩⟩

/-- Digit-accumulator core of the decimal printer, fuel-structural so that
concrete instances reduce in the kernel. -/
def pyStrCore : Nat → Nat → List Char → List Char
  | 0, _, acc => acc
  | fuel + 1, n, acc =>
    if n < 10 then Nat.digitChar n :: acc
    else pyStrCore fuel (n / 10) (Nat.digitChar (n % 10) :: acc)

/-- Models Python str on a natural number: the list of its decimal digit
characters (the source applies str to the low_radix and high_radix ints). -/
def pyStr (n : Nat) : List Char := pyStrCore (n + 1) n []

/-- Per-basis-string body of the source's x: the new string is
string[:qubit] + replacement + string[qubit+1:], where the replacement swaps
the one-character slice at qubit between str(low_radix) and str(low_radix+1)
and copies it otherwise.  Reading string[qubit] raises IndexError when qubit
is out of range, modelled as none. -/
def xStr (qubit low_radix : Nat) (s : List Char) : Option (List Char) :=
  if h : qubit < s.length then
    some (s.take qubit ++
      (if [s.get ⟨qubit, h⟩] = pyStr (low_radix + 1) then pyStr low_radix
       else if [s.get ⟨qubit, h⟩] = pyStr low_radix then pyStr (low_radix + 1)
       else [s.get ⟨qubit, h⟩]) ++
      s.drop (qubit + 1))
  else none

/-- The per-string loop of the source's x: each basis string is rewritten in
order; a failing index aborts the whole call. -/
def xList (qubit low_radix : Nat) : List (List Char) → Option (List (List Char))
  | [] => some []
  | s :: rest =>
    match xStr qubit low_radix s with
    | some s' =>
      match xList qubit low_radix rest with
      | some rest' => some (s' :: rest')
      | none => none
    | none => none

/-- Apply a subspace X gate to qubit in the state (source: x in
qutrit_ghz_example.py). -/
def x (state : List (List Char)) (qubit low_radix : Nat) :
    Option (List (List Char)) :=
  xList qubit low_radix state

/-- Per-basis-string body of the source's subswap: the two-character slice at
low_qubit is swapped between str(low_radix)+str(low_radix) and
str(low_radix+1)+str(low_radix+1) and copied otherwise; slicing never raises,
so this is total. -/
def subswapStr (low_qubit low_radix : Nat) (s : List Char) : List Char :=
  s.take low_qubit ++
    (if (s.drop low_qubit).take 2 = pyStr low_radix ++ pyStr low_radix then
       pyStr (low_radix + 1) ++ pyStr (low_radix + 1)
     else if (s.drop low_qubit).take 2 = pyStr (low_radix + 1) ++ pyStr (low_radix + 1) then
       pyStr low_radix ++ pyStr low_radix
     else (s.drop low_qubit).take 2) ++
    s.drop (low_qubit + 2)

/-- Apply a subspace SWAP gate to low_qubit and low_qubit+1 in the state
(source: subswap in qutrit_ghz_example.py). -/
def subswap (state : List (List Char)) (low_qubit low_radix : Nat) :
    List (List Char) :=
  state.map (subswapStr low_qubit low_radix)

/-- First-match lookup of a transition name in the table, as Python dict
indexing (dict keys are unique, so the first match is the only one). -/
def lookupT {σ : Type} (transitions : List (String × (σ → σ))) (t : String) :
    Option (σ → σ) :=
  match transitions with
  | [] => none
  | tf :: rest => if tf.1 = t then some tf.2 else lookupT rest t

/-- Applies a path to a state: looks each name up in the table and applies the
transitions in order; none if some name is not a key of the table. -/
def applyNames {σ : Type} (transitions : List (String × (σ → σ))) (s : σ) :
    Path → Option σ
  | [] => some s
  | t :: rest =>
    match lookupT transitions t with
    | some f => applyNames transitions (f s) rest
    | none => none

/-- Frontier-node well-formedness invariant of the search loop: every pending
node carries a path that really leads from the initial state to the node's
state using table transitions, and memoizes exactly that path's cost. -/
def InvH {σ : Type} (transitions : List (String × (σ → σ))) (cost : Path → Int)
    (init : σ) (st : SearchState σ) : Prop :=
  ∀ nd ∈ st.frontier,
    applyNames transitions init nd.path = some nd.state ∧ nd.cost = cost nd.path

/-- Visited-set invariant: every state recorded so far failed the success
test (a successful state makes the search return before the next iteration). -/
def InvV {σ : Type} (success : σ → Bool) (st : SearchState σ) : Prop :=
  ∀ e ∈ st.visited, success e.1 = false

/-- Visited-label optimality invariant: each recorded path reaches its state
from the initial state, at a cost no larger than that of any table path
reaching the same state. -/
def InvA {σ : Type} (transitions : List (String × (σ → σ))) (cost : Path → Int)
    (init : σ) (st : SearchState σ) : Prop :=
  ∀ e ∈ st.visited, applyNames transitions init e.2 = some e.1 ∧
    ∀ q, applyNames transitions init q = some e.1 → cost e.2 ≤ cost q

/-- Expansion-coverage invariant: every transition out of a visited state
either leads to a visited state or left a pending node for its target whose
cost is at most the recorded cost plus the transition's weight. -/
def InvF {σ : Type} [DecidableEq σ] (transitions : List (String × (σ → σ)))
    (cost : Path → Int) (w : String → Int) (st : SearchState σ) : Prop :=
  ∀ e ∈ st.visited, ∀ tf ∈ transitions,
    visitedMem st.visited (tf.2 e.1) = true ∨
    ∃ nd ∈ st.frontier, nd.state = tf.2 e.1 ∧ nd.cost ≤ cost e.2 + w tf.1

/-- Root-coverage invariant: the initial state is visited or still pending at
no more than the empty path's cost. -/
def InvG {σ : Type} [DecidableEq σ] (cost : Path → Int) (init : σ)
    (st : SearchState σ) : Prop :=
  visitedMem st.visited init = true ∨
  ∃ nd ∈ st.frontier, nd.state = init ∧ nd.cost ≤ cost []

/-- The conjunction of all search-loop invariants used for the optimality
argument. -/
def Inv {σ : Type} [DecidableEq σ] (transitions : List (String × (σ → σ)))
    (success : σ → Bool) (cost : Path → Int) (w : String → Int) (init : σ)
    (st : SearchState σ) : Prop :=
  InvH transitions cost init st ∧ InvV success st ∧
    InvA transitions cost init st ∧ InvF transitions cost w st ∧
    InvG cost init st

/-- Number of states of the finite reachable overapproximation R not yet in
the visited dict. -/
def unvisitedCount {σ : Type} [DecidableEq σ] (R : List σ) (v : Visited σ) : Nat :=
  (R.filter (fun s => !visitedMem v s)).length

/-- Termination measure of the search loop over a finite reachable set R:
every iteration strictly decreases it. -/
def muSearch {σ : Type} [DecidableEq σ] (R : List σ)
    (transitions : List (String × (σ → σ))) (st : SearchState σ) : Nat :=
  unvisitedCount R st.visited * (transitions.length + 1) + st.frontier.length

/-- Transition name used by concrete search instances. -/
def nmA : String := "a"

/-- Transition name used by concrete search instances. -/
def nmB : String := "b"

/-- Transition name used by concrete search instances. -/
def nmC : String := "c"

/-- Concrete table over states 0..3: nmA and nmB both send 0 to 1 and
everything else to the sink 3; nmC sends 1 to the goal 2 and everything else
to 3. -/
def cexTrans : List (String × (Nat → Nat)) :=
  [(nmA, fun s => if s = 0 then 1 else 3),
   (nmB, fun s => if s = 0 then 1 else 3),
   (nmC, fun s => if s = 1 then 2 else 3)]

/-- Concrete success predicate: exactly the goal state 2. -/
def cexSuccess (s : Nat) : Bool := decide (s = 2)

/-- A whole-path cost, monotone under extension but not additive: a nonempty
path pays per later step 10 when it begins with nmA and 2 otherwise, plus a
bonus of 1 when it begins with nmB. -/
def cexCost : Path → Int
  | [] => 0
  | h :: rest =>
    (if h = nmA then (10 : Int) else 2) * (rest.length : Int) +
      (if h = nmB then 1 else 0)

/-- Transition name of the single-step witness instance. -/
def nmS : String := "s"

/-- Witness table: one transition that increments a natural-number state. -/
def witTrans : List (String × (Nat → Nat)) := [(nmS, fun s => s + 1)]

/-- Witness success predicate: exactly state 2. -/
def witSuccess (s : Nat) : Bool := decide (s = 2)

/-- Witness cost: path length, the additive cost with weight 1 per step. -/
def witCost (p : Path) : Int := p.length

/-- Toggle table whose reachable set from 0 is the finite set 0, 1. -/
def togTrans : List (String × (Nat → Nat)) := [(nmA, fun s => 1 - s)]

/-- A success predicate that never holds. -/
def neverSuccess (_ : Nat) : Bool := false

/-- A success predicate that always holds. -/
def alwaysSuccess (_ : Nat) : Bool := true

/-- Concrete loop state holding only the start node for state 0. -/
def c6Start : SearchState Nat := ⟨[], [⟨0, [], 0⟩]⟩

/-- Concrete loop state with an exhausted frontier. -/
def c5Empty : SearchState Nat := ⟨[], []⟩

/-- The loop state one searchStep after c6Start under cexTrans. -/
def c6Next : SearchState Nat :=
  ⟨[(0, [])], [⟨1, [nmA], 0⟩, ⟨1, [nmB], 1⟩, ⟨3, [nmC], 0⟩]⟩

/-- Characterization of a continuing iteration of the search loop: some node
was popped and either discarded as already visited, or freshly recorded,
found unsuccessful, and expanded. -/
theorem searchStep_next {σ : Type} [DecidableEq σ]
    {transitions : List (String × (σ → σ))} {success : σ → Bool}
    {cost : Path → Int} {st st' : SearchState σ}
    (h : searchStep transitions success cost st = .next st') :
    ∃ nd rest, heappop st.frontier = some (nd, rest) ∧
      ((visitedMem st.visited nd.state = true ∧ st' = ⟨st.visited, rest⟩) ∨
       (visitedMem st.visited nd.state = false ∧ success nd.state = false ∧
        st' = ⟨st.visited ++ [(nd.state, nd.path)],
               expand transitions (st.visited ++ [(nd.state, nd.path)]) nd cost
                 rest⟩)) := by
  unfold searchStep at h
  cases hp : heappop st.frontier with
  | none => rw [hp] at h; exact absurd h (by simp)
  | some pr =>
    obtain ⟨nd, rest⟩ := pr
    rw [hp] at h
    refine ⟨nd, rest, rfl, ?_⟩
    by_cases hv : visitedMem st.visited nd.state
    · simp only [hv, if_true] at h
      exact Or.inl ⟨hv, by cases h; rfl⟩
    · simp only [hv, if_false, Bool.false_eq_true] at h
      by_cases hs : success nd.state
      · simp only [hs, if_true] at h
        exact absurd h (by simp)
      · simp only [hs, if_false, Bool.false_eq_true] at h
        exact Or.inr ⟨by simp [hv], by simp [hs], by cases h; rfl⟩

/-- Characterization of a finishing iteration of the search loop: either the
frontier was exhausted and the outcome is noSolution, or a fresh successful
state was popped and its path is returned. -/
theorem searchStep_done {σ : Type} [DecidableEq σ]
    {transitions : List (String × (σ → σ))} {success : σ → Bool}
    {cost : Path → Int} {st : SearchState σ} {r : SearchOutcome}
    (h : searchStep transitions success cost st = .done r) :
    (heappop st.frontier = none ∧ r = .noSolution) ∨
    ∃ nd rest, heappop st.frontier = some (nd, rest) ∧
      visitedMem st.visited nd.state = false ∧ success nd.state = true ∧
      r = .found nd.path := by
  unfold searchStep at h
  cases hp : heappop st.frontier with
  | none => rw [hp] at h; exact Or.inl ⟨rfl, by cases h; rfl⟩
  | some pr =>
    obtain ⟨nd, rest⟩ := pr
    rw [hp] at h
    by_cases hv : visitedMem st.visited nd.state
    · simp only [hv, if_true] at h
      exact absurd h (by simp)
    · simp only [hv, if_false, Bool.false_eq_true] at h
      by_cases hs : success nd.state
      · simp only [hs, if_true] at h
        exact Or.inr ⟨nd, rest, rfl, by simp [hv], by simp [hs], by cases h; rfl⟩
      · simp only [hs, if_false, Bool.false_eq_true] at h
        exact absurd h (by simp)

/-- The scanned minimum is one of the scanned nodes. -/
theorem popMinAux_fst_mem {σ : Type} (best : heapnode σ) (l : List (heapnode σ)) :
    (popMinAux best l).1 ∈ best :: l := by
  induction l generalizing best with
  | nil => simp [popMinAux]
  | cons nd rest ih =>
    rw [popMinAux]
    split
    · have := ih nd
      simp only [List.mem_cons] at this ⊢
      tauto
    · have := ih best
      simp only [List.mem_cons] at this ⊢
      tauto

/-- The scanned minimum has minimal cost among the scanned nodes. -/
theorem popMinAux_fst_le {σ : Type} (best : heapnode σ) (l : List (heapnode σ)) :
    ∀ y ∈ best :: l, (popMinAux best l).1.cost ≤ y.cost := by
  induction l generalizing best with
  | nil =>
    intro y hy
    rcases List.mem_cons.1 hy with rfl | hy
    · simp [popMinAux]
    · cases hy
  | cons nd rest ih =>
    intro y hy
    rw [popMinAux]
    by_cases h : nd.cost < best.cost
    · rw [if_pos h]
      rcases List.mem_cons.1 hy with heq | hy'
      · subst heq
        exact le_trans (ih nd nd (List.mem_cons_self nd rest)) (le_of_lt h)
      · exact ih nd y hy'
    · rw [if_neg h]
      rcases List.mem_cons.1 hy with heq | hy'
      · subst heq
        exact ih y y (List.mem_cons_self y rest)
      · rcases List.mem_cons.1 hy' with heq | hy''
        · subst heq
          exact le_trans (ih best best (List.mem_cons_self best rest))
            (le_of_not_lt h)
        · exact ih best y (List.mem_cons_of_mem best hy'')

/-- Every scanned node is the returned minimum or is kept in the remainder. -/
theorem popMinAux_eq_or_mem {σ : Type} (best : heapnode σ)
    (l : List (heapnode σ)) :
    ∀ y ∈ best :: l, y = (popMinAux best l).1 ∨ y ∈ (popMinAux best l).2 := by
  induction l generalizing best with
  | nil =>
    intro y hy
    rcases List.mem_cons.1 hy with heq | hy'
    · exact Or.inl heq
    · cases hy'
  | cons nd rest ih =>
    intro y hy
    rw [popMinAux]
    by_cases h : nd.cost < best.cost
    · rw [if_pos h]
      rcases List.mem_cons.1 hy with heq | hy'
      · subst heq
        exact Or.inr (List.mem_cons_self y _)
      · rcases ih nd y hy' with he | hm
        · exact Or.inl he
        · exact Or.inr (List.mem_cons_of_mem best hm)
    · rw [if_neg h]
      rcases List.mem_cons.1 hy with heq | hy'
      · rcases ih best y (by rw [heq]; exact List.mem_cons_self best rest)
          with he | hm
        · exact Or.inl he
        · exact Or.inr (List.mem_cons_of_mem nd hm)
      · rcases List.mem_cons.1 hy' with heq | hy''
        · subst heq
          exact Or.inr (List.mem_cons_self y _)
        · rcases ih best y (List.mem_cons_of_mem best hy'') with he | hm
          · exact Or.inl he
          · exact Or.inr (List.mem_cons_of_mem nd hm)

/-- Every kept node was among the scanned nodes. -/
theorem popMinAux_snd_sub {σ : Type} (best : heapnode σ)
    (l : List (heapnode σ)) :
    ∀ y ∈ (popMinAux best l).2, y ∈ best :: l := by
  induction l generalizing best with
  | nil => intro y hy; simp [popMinAux] at hy
  | cons nd rest ih =>
    intro y hy
    rw [popMinAux] at hy
    by_cases h : nd.cost < best.cost
    · rw [if_pos h] at hy
      rcases List.mem_cons.1 hy with heq | hy'
      · subst heq
        exact List.mem_cons_self y _
      · have := ih nd y hy'
        simp only [List.mem_cons] at this ⊢
        tauto
    · rw [if_neg h] at hy
      rcases List.mem_cons.1 hy with heq | hy'
      · subst heq
        simp
      · have := ih best y hy'
        simp only [List.mem_cons] at this ⊢
        tauto

/-- The scan keeps exactly one node fewer than it was given. -/
theorem popMinAux_snd_length {σ : Type} (best : heapnode σ)
    (l : List (heapnode σ)) : (popMinAux best l).2.length = l.length := by
  induction l generalizing best with
  | nil => simp [popMinAux]
  | cons nd rest ih =>
    rw [popMinAux]
    by_cases h : nd.cost < best.cost
    · rw [if_pos h]; simp [ih]
    · rw [if_neg h]; simp [ih]

/-- heappop succeeds exactly on a nonempty frontier. -/
theorem heappop_eq_none {σ : Type} (l : List (heapnode σ)) :
    heappop l = none ↔ l = [] := by
  cases l with
  | nil => simp [heappop]
  | cons nd rest => simp [heappop]

/-- The popped node was in the frontier. -/
theorem heappop_mem {σ : Type} {l rest : List (heapnode σ)} {nd : heapnode σ}
    (h : heappop l = some (nd, rest)) : nd ∈ l := by
  cases l with
  | nil => cases h
  | cons hd tl =>
    rw [heappop] at h
    injection h with h
    have h1 : (popMinAux hd tl).1 = nd := congrArg Prod.fst h
    rw [← h1]
    exact popMinAux_fst_mem hd tl

/-- The popped node has minimal cost in the frontier. -/
theorem heappop_min {σ : Type} {l rest : List (heapnode σ)} {nd : heapnode σ}
    (h : heappop l = some (nd, rest)) : ∀ y ∈ l, nd.cost ≤ y.cost := by
  cases l with
  | nil => cases h
  | cons hd tl =>
    rw [heappop] at h
    injection h with h
    have h1 : (popMinAux hd tl).1 = nd := congrArg Prod.fst h
    rw [← h1]
    exact popMinAux_fst_le hd tl

/-- Every frontier node is the popped node or survives the pop. -/
theorem heappop_eq_or_mem {σ : Type} {l rest : List (heapnode σ)}
    {nd : heapnode σ} (h : heappop l = some (nd, rest)) :
    ∀ y ∈ l, y = nd ∨ y ∈ rest := by
  cases l with
  | nil => cases h
  | cons hd tl =>
    rw [heappop] at h
    injection h with h
    have h1 : (popMinAux hd tl).1 = nd := congrArg Prod.fst h
    have h2 : (popMinAux hd tl).2 = rest := congrArg Prod.snd h
    intro y hy
    rw [← h1, ← h2]
    exact popMinAux_eq_or_mem hd tl y hy

/-- Every surviving node was in the frontier. -/
theorem heappop_sub {σ : Type} {l rest : List (heapnode σ)} {nd : heapnode σ}
    (h : heappop l = some (nd, rest)) : ∀ y ∈ rest, y ∈ l := by
  cases l with
  | nil => cases h
  | cons hd tl =>
    rw [heappop] at h
    injection h with h
    have h2 : (popMinAux hd tl).2 = rest := congrArg Prod.snd h
    intro y hy
    rw [← h2] at hy
    exact popMinAux_snd_sub hd tl y hy

/-- A pop shrinks the frontier by exactly one node. -/
theorem heappop_length {σ : Type} {l rest : List (heapnode σ)}
    {nd : heapnode σ} (h : heappop l = some (nd, rest)) :
    l.length = rest.length + 1 := by
  cases l with
  | nil => cases h
  | cons hd tl =>
    rw [heappop] at h
    injection h with h
    have h2 : (popMinAux hd tl).2 = rest := congrArg Prod.snd h
    rw [← h2, popMinAux_snd_length]
    simp

/-- Dict membership unfolded to an existential over the entries. -/
theorem visitedMem_iff {σ : Type} [DecidableEq σ] (v : Visited σ) (s : σ) :
    visitedMem v s = true ↔ ∃ e ∈ v, e.1 = s := by
  simp [visitedMem, List.any_eq_true]

/-- Dict membership across an append of entry lists. -/
theorem visitedMem_append {σ : Type} [DecidableEq σ] (v w : Visited σ) (s : σ) :
    visitedMem (v ++ w) s = (visitedMem v s || visitedMem w s) := by
  simp [visitedMem, List.any_append]

/-- Unfolding of the expansion loop for one table entry. -/
theorem expand_cons {σ : Type} [DecidableEq σ] (tf : String × (σ → σ))
    (ts : List (String × (σ → σ))) (visited : Visited σ) (node : heapnode σ)
    (cost : Path → Int) (fr : List (heapnode σ)) :
    expand (tf :: ts) visited node cost fr =
      expand ts visited node cost
        (if visitedMem visited (tf.2 node.state) then fr
         else heappush fr
           ⟨tf.2 node.state, node.path ++ [tf.1], cost (node.path ++ [tf.1])⟩) :=
  rfl

/-- Membership in the result of the expansion loop: the old frontier nodes
plus one pushed node per table entry whose successor is unvisited. -/
theorem expand_mem_iff {σ : Type} [DecidableEq σ]
    {ts : List (String × (σ → σ))} {visited : Visited σ} {node : heapnode σ}
    {cost : Path → Int} {fr : List (heapnode σ)} {y : heapnode σ} :
    y ∈ expand ts visited node cost fr ↔
      y ∈ fr ∨ ∃ tf ∈ ts, visitedMem visited (tf.2 node.state) = false ∧
        y = ⟨tf.2 node.state, node.path ++ [tf.1],
             cost (node.path ++ [tf.1])⟩ := by
  induction ts generalizing fr with
  | nil => simp [expand]
  | cons tf ts ih =>
    rw [expand_cons, ih]
    by_cases h : visitedMem visited (tf.2 node.state)
    · rw [if_pos h]
      constructor
      · rintro (hy | ⟨tf', htf', hc, rfl⟩)
        · exact Or.inl hy
        · exact Or.inr ⟨tf', List.mem_cons_of_mem tf htf', hc, rfl⟩
      · rintro (hy | ⟨tf', htf', hc, rfl⟩)
        · exact Or.inl hy
        · rcases List.mem_cons.1 htf' with rfl | htf''
          · rw [h] at hc; cases hc
          · exact Or.inr ⟨tf', htf'', hc, rfl⟩
    · rw [if_neg h]
      have hfalse : visitedMem visited (tf.2 node.state) = false := by
        simpa using h
      constructor
      · rintro (hy | ⟨tf', htf', hc, rfl⟩)
        · rcases List.mem_append.1 hy with hy' | hy'
          · exact Or.inl hy'
          · have : y = (⟨tf.2 node.state, node.path ++ [tf.1],
                cost (node.path ++ [tf.1])⟩ : heapnode σ) := by
              simpa [heappush] using hy'
            exact Or.inr ⟨tf, List.mem_cons_self tf ts, hfalse, this⟩
        · exact Or.inr ⟨tf', List.mem_cons_of_mem tf htf', hc, rfl⟩
      · rintro (hy | ⟨tf', htf', hc, rfl⟩)
        · exact Or.inl (List.mem_append_left _ hy)
        · rcases List.mem_cons.1 htf' with rfl | htf''
          · exact Or.inl (by simp [heappush])
          · exact Or.inr ⟨tf', htf'', hc, rfl⟩

/-- Applying a concatenated path is applying the pieces in order. -/
theorem applyNames_append {σ : Type} (transitions : List (String × (σ → σ)))
    (s : σ) (q₁ q₂ : Path) :
    applyNames transitions s (q₁ ++ q₂) =
      (applyNames transitions s q₁).bind
        (fun s' => applyNames transitions s' q₂) := by
  induction q₁ generalizing s with
  | nil => simp [applyNames]
  | cons t q ih =>
    simp only [List.cons_append, applyNames]
    cases h : lookupT transitions t with
    | none => simp
    | some f => simp [ih]

/-- With unique keys, the table entry that the iteration saw is exactly what
lookup by its name returns. -/
theorem lookupT_of_mem {σ : Type} {transitions : List (String × (σ → σ))}
    (hnd : (transitions.map Prod.fst).Nodup) {tf : String × (σ → σ)}
    (h : tf ∈ transitions) : lookupT transitions tf.1 = some tf.2 := by
  induction transitions with
  | nil => cases h
  | cons hd tl ih =>
    rw [lookupT]
    rcases List.mem_cons.1 h with rfl | h'
    · simp
    · have hnd' : (hd.1 :: tl.map Prod.fst).Nodup := by simpa using hnd
      have hne : hd.1 ≠ tf.1 := by
        intro he
        exact (List.nodup_cons.1 hnd').1
          (he ▸ List.mem_map_of_mem Prod.fst h')
      rw [if_neg hne]
      exact ih (List.nodup_cons.1 hnd').2 h'

/-- A successful lookup comes from a table entry. -/
theorem lookupT_mem {σ : Type} {transitions : List (String × (σ → σ))}
    {t : String} {f : σ → σ} (h : lookupT transitions t = some f) :
    (t, f) ∈ transitions := by
  induction transitions with
  | nil => cases h
  | cons hd tl ih =>
    rw [lookupT] at h
    by_cases he : hd.1 = t
    · rw [if_pos he] at h
      injection h with h
      have : hd = (t, f) := Prod.ext he h
      rw [← this]
      exact List.mem_cons_self hd tl
    · rw [if_neg he] at h
      exact List.mem_cons_of_mem hd (ih h)

/-- A path that replays successfully only uses names that are table keys. -/
theorem applyNames_keys {σ : Type} {transitions : List (String × (σ → σ))}
    {s e : σ} {p : Path} (h : applyNames transitions s p = some e) :
    ∀ t ∈ p, ∃ f, lookupT transitions t = some f := by
  induction p generalizing s with
  | nil => intro t ht; cases ht
  | cons t' q ih =>
    rw [applyNames] at h
    cases hl : lookupT transitions t' with
    | none => rw [hl] at h; cases h
    | some f =>
      rw [hl] at h
      intro u hu
      rcases List.mem_cons.1 hu with rfl | hu'
      · exact ⟨f, hl⟩
      · exact ih h u hu'

/-- InvH holds for the loop state the search starts from. -/
theorem invH_init {σ : Type} [DecidableEq σ]
    (transitions : List (String × (σ → σ))) (cost : Path → Int) (init : σ) :
    InvH transitions cost init ⟨[], heappush [] ⟨init, [], cost []⟩⟩ := by
  intro nd hnd
  simp only [heappush, List.nil_append, List.mem_singleton] at hnd
  subst hnd
  exact ⟨rfl, rfl⟩

/-- InvH is preserved by every continuing loop iteration (unique table keys
make the iterated entry agree with lookup by name). -/
theorem invH_preserved {σ : Type} [DecidableEq σ]
    {transitions : List (String × (σ → σ))} {success : σ → Bool}
    {cost : Path → Int} {init : σ} {st st' : SearchState σ}
    (hnd : (transitions.map Prod.fst).Nodup)
    (hH : InvH transitions cost init st)
    (h : searchStep transitions success cost st = .next st') :
    InvH transitions cost init st' := by
  obtain ⟨nd, rest, hp, hcase⟩ := searchStep_next h
  rcases hcase with ⟨hv, rfl⟩ | ⟨hv, hs, rfl⟩
  · intro y hy
    exact hH y (heappop_sub hp y hy)
  · intro y hy
    rcases expand_mem_iff.1 hy with hy' | ⟨tf, htf, hc, rfl⟩
    · exact hH y (heappop_sub hp y hy')
    · obtain ⟨hpath, hcost⟩ := hH nd (heappop_mem hp)
      refine ⟨?_, rfl⟩
      rw [applyNames_append, hpath]
      show applyNames transitions nd.state [tf.1] = some (tf.2 nd.state)
      rw [applyNames, lookupT_of_mem hnd htf]
      rfl

/-- When the loop returns a path, that path replays from the initial state to
a successful state. -/
theorem searchLoop_found_valid {σ : Type} [DecidableEq σ]
    {transitions : List (String × (σ → σ))} {success : σ → Bool}
    {cost : Path → Int} {init : σ} {p : Path}
    (hnd : (transitions.map Prod.fst).Nodup) :
    ∀ fuel (st : SearchState σ), InvH transitions cost init st →
      searchLoop transitions success cost fuel st = some (.found p) →
      ∃ s, applyNames transitions init p = some s ∧ success s = true := by
  intro fuel
  induction fuel with
  | zero => intro st _ h; cases h
  | succ n ih =>
    intro st hH hrun
    rw [searchLoop] at hrun
    cases hstep : searchStep transitions success cost st with
    | done r =>
      rw [hstep] at hrun
      injection hrun with hrun
      subst hrun
      rcases searchStep_done hstep with ⟨_, heq⟩ | ⟨nd, rest, hp, hv, hs, heq⟩
      · cases heq
      · obtain ⟨hpath, _⟩ := hH nd (heappop_mem hp)
        injection heq with heq
        subst heq
        exact ⟨nd.state, hpath, hs⟩
    | next st' =>
      rw [hstep] at hrun
      exact ih st' (invH_preserved hnd hH hstep) hrun

/-- Claim C2 (confirmed): whenever the search returns a path, every name on
it is a key of the transition table, and applying the looked-up transitions
in order to the initial state yields a state satisfying success. -/
theorem C2_path_validity {σ : Type} [DecidableEq σ] (init : σ)
    (transitions : List (String × (σ → σ))) (success : σ → Bool)
    (cost : Path → Int) (fuel : Nat) (p : Path)
    (hnd : (transitions.map Prod.fst).Nodup)
    (hrun : state_search_via_dijkstras fuel init transitions success cost =
      some (.found p)) :
    (∀ t ∈ p, ∃ f, lookupT transitions t = some f) ∧
    ∃ s, applyNames transitions init p = some s ∧ success s = true := by
  have h := searchLoop_found_valid hnd fuel _
    (invH_init transitions cost init) hrun
  obtain ⟨s, hs, hsucc⟩ := h
  exact ⟨applyNames_keys hs, s, hs, hsucc⟩

/-- Witness for C2 at a concrete instance. -/
theorem C2_path_validity_witness :
    (∀ t ∈ ([nmS, nmS] : Path), ∃ f, lookupT witTrans t = some f) ∧
    ∃ s, applyNames witTrans 0 [nmS, nmS] = some s ∧ witSuccess s = true :=
  C2_path_validity 0 witTrans witSuccess witCost 4 [nmS, nmS] (by decide)
    (by decide)

/-- All loop invariants hold at the loop state the search starts from. -/
theorem inv_init {σ : Type} [DecidableEq σ]
    (transitions : List (String × (σ → σ))) (success : σ → Bool)
    (cost : Path → Int) (w : String → Int) (init : σ) :
    Inv transitions success cost w init
      ⟨[], heappush [] ⟨init, [], cost []⟩⟩ := by
  refine ⟨invH_init transitions cost init, ?_, ?_, ?_, ?_⟩
  · intro e he; exact absurd he (List.not_mem_nil e)
  · intro e he; exact absurd he (List.not_mem_nil e)
  · intro e he _ _; exact absurd he (List.not_mem_nil e)
  · exact Or.inr ⟨⟨init, [], cost []⟩, by simp [heappush], rfl, le_refl _⟩

/-- Coverage of every reachable unvisited state: under an additive
nonnegative cost, the invariants give, for each table path q reaching an
unvisited state, an unvisited pending node costing at most cost q. -/
theorem frontier_covers {σ : Type} [DecidableEq σ]
    {transitions : List (String × (σ → σ))} {success : σ → Bool}
    {cost : Path → Int} {w : String → Int} {init : σ} {st : SearchState σ}
    (hadd : ∀ p t, cost (p ++ [t]) = cost p + w t)
    (hw : ∀ t, 0 ≤ w t)
    (hInv : Inv transitions success cost w init st) :
    ∀ (q : Path) (e : σ), applyNames transitions init q = some e →
      visitedMem st.visited e = false →
      ∃ nd ∈ st.frontier, visitedMem st.visited nd.state = false ∧
        nd.cost ≤ cost q := by
  obtain ⟨hH, hV, hA, hF, hG⟩ := hInv
  intro q
  induction q using List.reverseRecOn with
  | nil =>
    intro e he hvm
    rw [applyNames] at he
    injection he with he
    subst he
    rcases hG with hg | ⟨nd, hnd, hstate, hcost⟩
    · rw [hg] at hvm; cases hvm
    · refine ⟨nd, hnd, ?_, hcost⟩
      rw [hstate]
      exact hvm
  | append_singleton q t ih =>
    intro e he hvm
    rw [applyNames_append] at he
    cases hq : applyNames transitions init q with
    | none => rw [hq] at he; cases he
    | some e' =>
      rw [hq] at he
      have he2 : applyNames transitions e' [t] = some e := he
      rw [applyNames] at he2
      cases hl : lookupT transitions t with
      | none => rw [hl] at he2; cases he2
      | some f =>
        rw [hl] at he2
        have he3 : some (f e') = some e := he2
        injection he3 with he3
        subst he3
        by_cases hve' : visitedMem st.visited e' = true
        · obtain ⟨ent, hent, hent1⟩ := (visitedMem_iff st.visited e').1 hve'
          have htf : (t, f) ∈ transitions := lookupT_mem hl
          rcases hF ent hent (t, f) htf with hvis | ⟨nd, hnd, hstate, hcost⟩
          · exfalso
            rw [hent1] at hvis
            have hvis' : visitedMem st.visited (f e') = true := hvis
            rw [hvm] at hvis'
            cases hvis'
          · rw [hent1] at hstate
            have hstate' : nd.state = f e' := hstate
            refine ⟨nd, hnd, ?_, ?_⟩
            · rw [hstate']
              exact hvm
            · have hAq : cost ent.2 ≤ cost q := (hA ent hent).2 q
                (by rw [hent1]; exact hq)
              have hcost' : nd.cost ≤ cost ent.2 + w t := hcost
              rw [hadd q t]
              linarith
        · have hve'' : visitedMem st.visited e' = false := by simpa using hve'
          obtain ⟨nd, hnd, hnv, hcost⟩ := ih e' hq hve''
          refine ⟨nd, hnd, hnv, ?_⟩
          rw [hadd q t]
          have hwt : 0 ≤ w t := hw t
          linarith

/-- Every loop invariant is preserved by every continuing loop iteration
under an additive nonnegative cost and unique table keys. -/
theorem inv_preserved {σ : Type} [DecidableEq σ]
    {transitions : List (String × (σ → σ))} {success : σ → Bool}
    {cost : Path → Int} {w : String → Int} {init : σ} {st st' : SearchState σ}
    (hnd : (transitions.map Prod.fst).Nodup)
    (hadd : ∀ p t, cost (p ++ [t]) = cost p + w t)
    (hw : ∀ t, 0 ≤ w t)
    (hInv : Inv transitions success cost w init st)
    (hstep : searchStep transitions success cost st = .next st') :
    Inv transitions success cost w init st' := by
  obtain ⟨hH, hV, hA, hF, hG⟩ := hInv
  obtain ⟨nd0, rest, hp, hcase⟩ := searchStep_next hstep
  rcases hcase with ⟨hv, rfl⟩ | ⟨hv, hs, rfl⟩
  · refine ⟨?_, hV, hA, ?_, ?_⟩
    · intro y hy; exact hH y (heappop_sub hp y hy)
    · intro e he tf htf
      rcases hF e he tf htf with hvis | ⟨nd, hnd', hstate, hcost⟩
      · exact Or.inl hvis
      · rcases heappop_eq_or_mem hp nd hnd' with heq | hm
        · left
          rw [← hstate, heq]
          exact hv
        · exact Or.inr ⟨nd, hm, hstate, hcost⟩
    · rcases hG with hvis | ⟨nd, hnd', hstate, hcost⟩
      · exact Or.inl hvis
      · rcases heappop_eq_or_mem hp nd hnd' with heq | hm
        · left
          rw [← hstate, heq]
          exact hv
        · exact Or.inr ⟨nd, hm, hstate, hcost⟩
  · have hmem0 := heappop_mem hp
    obtain ⟨hpath0, hcost0⟩ := hH nd0 hmem0
    have hopt : ∀ q, applyNames transitions init q = some nd0.state →
        nd0.cost ≤ cost q := by
      intro q hq
      obtain ⟨nd, hnd', hnv, hcost⟩ := frontier_covers hadd hw
        ⟨hH, hV, hA, hF, hG⟩ q nd0.state hq hv
      exact le_trans (heappop_min hp nd hnd') hcost
    have hvm' : ∀ s : σ,
        visitedMem (st.visited ++ [(nd0.state, nd0.path)]) s =
          (visitedMem st.visited s || decide (nd0.state = s)) := by
      intro s
      rw [visitedMem_append]
      simp [visitedMem]
    refine ⟨?_, ?_, ?_, ?_, ?_⟩
    · intro y hy
      rcases expand_mem_iff.1 hy with hy' | ⟨tf, htf, hc, rfl⟩
      · exact hH y (heappop_sub hp y hy')
      · refine ⟨?_, rfl⟩
        rw [applyNames_append, hpath0]
        show applyNames transitions nd0.state [tf.1] = some (tf.2 nd0.state)
        rw [applyNames, lookupT_of_mem hnd htf]
        rfl
    · intro e he
      rcases List.mem_append.1 he with he' | he'
      · exact hV e he'
      · have heq : e = (nd0.state, nd0.path) := by simpa using he'
        rw [heq]
        exact hs
    · intro e he
      rcases List.mem_append.1 he with he' | he'
      · exact hA e he'
      · have heq : e = (nd0.state, nd0.path) := by simpa using he'
        rw [heq]
        refine ⟨hpath0, fun q hq => ?_⟩
        rw [← hcost0]
        exact hopt q hq
    · intro e he tf htf
      rcases List.mem_append.1 he with he' | he'
      · rcases hF e he' tf htf with hvis | ⟨nd, hnd', hstate, hcost⟩
        · left
          rw [hvm', hvis]
          rfl
        · rcases heappop_eq_or_mem hp nd hnd' with heq | hm
          · left
            rw [heq] at hstate
            rw [hvm']
            simp [← hstate]
          · exact Or.inr ⟨nd, expand_mem_iff.2 (Or.inl hm), hstate, hcost⟩
      · have heq : e = (nd0.state, nd0.path) := by simpa using he'
        subst heq
        by_cases hvt : visitedMem (st.visited ++ [(nd0.state, nd0.path)])
            (tf.2 nd0.state) = true
        · exact Or.inl hvt
        · right
          refine ⟨⟨tf.2 nd0.state, nd0.path ++ [tf.1],
            cost (nd0.path ++ [tf.1])⟩, ?_, rfl, ?_⟩
          · apply expand_mem_iff.2
            right
            exact ⟨tf, htf, by simpa using hvt, rfl⟩
          · rw [hadd]
    · rcases hG with hvis | ⟨nd, hnd', hstate, hcost⟩
      · left
        rw [hvm', hvis]
        rfl
      · rcases heappop_eq_or_mem hp nd hnd' with heq | hm
        · left
          rw [heq] at hstate
          rw [hvm']
          simp [← hstate]
        · exact Or.inr ⟨nd, expand_mem_iff.2 (Or.inl hm), hstate, hcost⟩

/-- When the loop returns a path under an additive nonnegative cost, that
path's cost bounds the cost of every success-reaching table path. -/
theorem searchLoop_found_optimal {σ : Type} [DecidableEq σ]
    {transitions : List (String × (σ → σ))} {success : σ → Bool}
    {cost : Path → Int} {w : String → Int} {init : σ} {p : Path}
    (hnd : (transitions.map Prod.fst).Nodup)
    (hadd : ∀ p' t, cost (p' ++ [t]) = cost p' + w t)
    (hw : ∀ t, 0 ≤ w t) :
    ∀ fuel (st : SearchState σ), Inv transitions success cost w init st →
      searchLoop transitions success cost fuel st = some (.found p) →
      ∀ q e, applyNames transitions init q = some e → success e = true →
        cost p ≤ cost q := by
  intro fuel
  induction fuel with
  | zero => intro st _ h; cases h
  | succ n ih =>
    intro st hInv hrun
    rw [searchLoop] at hrun
    cases hstep : searchStep transitions success cost st with
    | done r =>
      rw [hstep] at hrun
      injection hrun with hrun
      subst hrun
      rcases searchStep_done hstep with ⟨_, heq⟩ | ⟨nd0, rest, hp, hv, hs, heq⟩
      · cases heq
      · injection heq with heq
        subst heq
        obtain ⟨hH, hV, hA, hF, hG⟩ := hInv
        intro q e hq hsucc
        have hev : visitedMem st.visited e = false := by
          cases hb : visitedMem st.visited e with
          | false => rfl
          | true =>
            obtain ⟨ent, hent, hent1⟩ := (visitedMem_iff _ _).1 hb
            have hvf := hV ent hent
            rw [hent1] at hvf
            rw [hvf] at hsucc
            cases hsucc
        obtain ⟨nd, hnd', hnv, hcost⟩ := frontier_covers hadd hw
          ⟨hH, hV, hA, hF, hG⟩ q e hq hev
        have h1 := heappop_min hp nd hnd'
        have h2 := (hH nd0 (heappop_mem hp)).2
        linarith
    | next st' =>
      rw [hstep] at hrun
      exact ih st' (inv_preserved hnd hadd hw hInv hstep) hrun

/-- Claim C1 (corrected): for every cost function that is additive along
transitions with nonnegative per-transition weights (not merely monotone
under extension, which C1_counterexample refutes), and a transition table
with unique keys, a returned path reaches a success state and its cost is
the minimum cost over all success-reaching table paths. -/
theorem C1_optimal_additive {σ : Type} [DecidableEq σ] (init : σ)
    (transitions : List (String × (σ → σ))) (success : σ → Bool)
    (cost : Path → Int) (w : String → Int) (fuel : Nat) (p : Path)
    (hnd : (transitions.map Prod.fst).Nodup)
    (hadd : ∀ p' t, cost (p' ++ [t]) = cost p' + w t)
    (hw : ∀ t, 0 ≤ w t)
    (hrun : state_search_via_dijkstras fuel init transitions success cost =
      some (.found p)) :
    (∃ s, applyNames transitions init p = some s ∧ success s = true) ∧
    (∀ q s', applyNames transitions init q = some s' → success s' = true →
      cost p ≤ cost q) := by
  constructor
  · exact searchLoop_found_valid hnd fuel _
      (invH_init transitions cost init) hrun
  · intro q s' hq hs'
    exact searchLoop_found_optimal hnd hadd hw fuel _
      (inv_init transitions success cost w init) hrun q s' hq hs'

/-- Witness for C1 at a concrete additive-cost instance. -/
theorem C1_optimal_additive_witness :
    (∃ s, applyNames witTrans 0 [nmS, nmS] = some s ∧ witSuccess s = true) ∧
    (∀ q s', applyNames witTrans 0 q = some s' → witSuccess s' = true →
      witCost [nmS, nmS] ≤ witCost q) :=
  C1_optimal_additive 0 witTrans witSuccess witCost (fun _ => 1) 4 [nmS, nmS]
    (by decide)
    (fun p' t => by simp [witCost])
    (fun t => by norm_num)
    (by decide)

/-- More fuel never changes the result of a search that already finished. -/
theorem searchLoop_mono {σ : Type} [DecidableEq σ]
    {transitions : List (String × (σ → σ))} {success : σ → Bool}
    {cost : Path → Int} {r : SearchOutcome} :
    ∀ (fuel m : Nat) (st : SearchState σ),
      searchLoop transitions success cost fuel st = some r → fuel ≤ m →
      searchLoop transitions success cost m st = some r := by
  intro fuel
  induction fuel with
  | zero => intro m st h _; cases h
  | succ n ih =>
    intro m st h hle
    rw [searchLoop] at h
    obtain ⟨m', rfl⟩ : ∃ m', m = m' + 1 := ⟨m - 1, by omega⟩
    rw [searchLoop]
    cases hstep : searchStep transitions success cost st with
    | done r' => rw [hstep] at h; exact h
    | next st' => rw [hstep] at h; exact ih m' st' h (by omega)

/-- Filtering with a weaker predicate keeps at least as many elements. -/
theorem length_filter_mono {α : Type} (p₁ p₂ : α → Bool) (l : List α)
    (himp : ∀ b, p₂ b = true → p₁ b = true) :
    (l.filter p₂).length ≤ (l.filter p₁).length := by
  induction l with
  | nil => simp
  | cons hd tl ih =>
    rw [List.filter_cons, List.filter_cons]
    by_cases h2 : p₂ hd = true
    · rw [if_pos h2, if_pos (himp hd h2)]
      simpa using ih
    · rw [if_neg h2]
      by_cases h1 : p₁ hd = true
      · rw [if_pos h1]
        exact le_trans ih (by simp)
      · rw [if_neg h1]
        exact ih

/-- Filtering with a strictly weaker predicate at some member of the list
keeps strictly fewer elements. -/
theorem length_filter_lt {α : Type} (p₁ p₂ : α → Bool) (l : List α) (a : α)
    (ha : a ∈ l) (h₁ : p₁ a = true) (h₂ : p₂ a = false)
    (himp : ∀ b, p₂ b = true → p₁ b = true) :
    (l.filter p₂).length < (l.filter p₁).length := by
  induction l with
  | nil => cases ha
  | cons hd tl ih =>
    rw [List.filter_cons, List.filter_cons]
    by_cases hhd : p₂ hd = true
    · rw [if_pos hhd, if_pos (himp hd hhd)]
      simp only [List.length_cons]
      have ha' : a ∈ tl := by
        rcases List.mem_cons.1 ha with heq | h'
        · exfalso
          rw [heq] at h₂
          rw [h₂] at hhd
          cases hhd
        · exact h'
      exact Nat.succ_lt_succ (ih ha')
    · rw [if_neg hhd]
      by_cases h1 : p₁ hd = true
      · rw [if_pos h1]
        simp only [List.length_cons]
        rcases List.mem_cons.1 ha with heq | ha'
        · exact Nat.lt_succ_of_le (length_filter_mono p₁ p₂ tl himp)
        · exact Nat.lt_succ_of_le (le_of_lt (ih ha'))
      · rw [if_neg h1]
        rcases List.mem_cons.1 ha with heq | ha'
        · exfalso
          rw [heq] at h₁
          exact h1 h₁
        · exact ih ha'

/-- Recording a fresh member of R strictly shrinks the count of unvisited
R-states. -/
theorem unvisitedCount_append_lt {σ : Type} [DecidableEq σ] (R : List σ)
    (v : Visited σ) (e : σ × Path) (hmem : e.1 ∈ R)
    (hv : visitedMem v e.1 = false) :
    unvisitedCount R (v ++ [e]) < unvisitedCount R v := by
  apply length_filter_lt (fun s => !visitedMem v s)
    (fun s => !visitedMem (v ++ [e]) s) R e.1 hmem
  · simp [hv]
  · simp [visitedMem_append, visitedMem]
  · intro b hb
    simp only [Bool.not_eq_true', visitedMem_append, Bool.or_eq_false_iff]
      at hb
    simp [hb.1]

/-- The expansion loop pushes at most one node per table entry. -/
theorem expand_length_le {σ : Type} [DecidableEq σ]
    (ts : List (String × (σ → σ))) (visited : Visited σ) (node : heapnode σ)
    (cost : Path → Int) (fr : List (heapnode σ)) :
    (expand ts visited node cost fr).length ≤ fr.length + ts.length := by
  induction ts generalizing fr with
  | nil => simp [expand]
  | cons tf ts ih =>
    rw [expand_cons]
    by_cases h : visitedMem visited (tf.2 node.state)
    · rw [if_pos h]
      exact le_trans (ih fr) (by simp)
    · rw [if_neg h]
      refine le_trans (ih _) ?_
      simp [heappush]
      omega

/-- Over a transition-closed set R of non-success states whose elements cover
the frontier, a loop iteration can only finish with noSolution, and a
continuing iteration keeps the frontier covered and strictly decreases the
termination measure. -/
theorem step_decreases {σ : Type} [DecidableEq σ]
    {transitions : List (String × (σ → σ))} {success : σ → Bool}
    {cost : Path → Int} {R : List σ}
    (hclosed : ∀ s ∈ R, ∀ tf ∈ transitions, tf.2 s ∈ R)
    (hfail : ∀ s ∈ R, success s = false)
    {st : SearchState σ} (hFS : ∀ nd ∈ st.frontier, nd.state ∈ R) :
    (∀ r, searchStep transitions success cost st = .done r →
      r = .noSolution) ∧
    (∀ st', searchStep transitions success cost st = .next st' →
      (∀ nd ∈ st'.frontier, nd.state ∈ R) ∧
      muSearch R transitions st' < muSearch R transitions st) := by
  constructor
  · intro r hr
    rcases searchStep_done hr with ⟨_, h⟩ | ⟨nd, rest, hp, hv, hs, h⟩
    · exact h
    · exfalso
      have hR : nd.state ∈ R := hFS nd (heappop_mem hp)
      rw [hfail nd.state hR] at hs
      cases hs
  · intro st' hstep
    obtain ⟨nd, rest, hp, hcase⟩ := searchStep_next hstep
    have hlen := heappop_length hp
    rcases hcase with ⟨hv, rfl⟩ | ⟨hv, hs, rfl⟩
    · refine ⟨fun y hy => hFS y (heappop_sub hp y hy), ?_⟩
      simp only [muSearch]
      exact Nat.add_lt_add_left (by omega) _
    · have hndR : nd.state ∈ R := hFS nd (heappop_mem hp)
      constructor
      · intro y hy
        rcases expand_mem_iff.1 hy with hy' | ⟨tf, htf, hc, rfl⟩
        · exact hFS y (heappop_sub hp y hy')
        · exact hclosed nd.state hndR tf htf
      · have hu : unvisitedCount R (st.visited ++ [(nd.state, nd.path)]) <
            unvisitedCount R st.visited :=
          unvisitedCount_append_lt R st.visited (nd.state, nd.path) hndR hv
        have hexp := expand_length_le transitions
          (st.visited ++ [(nd.state, nd.path)]) nd cost rest
        simp only [muSearch]
        have hKmul : unvisitedCount R (st.visited ++ [(nd.state, nd.path)]) *
              (transitions.length + 1) + (transitions.length + 1) ≤
            unvisitedCount R st.visited * (transitions.length + 1) := by
          have h1 : unvisitedCount R (st.visited ++ [(nd.state, nd.path)]) + 1 ≤
              unvisitedCount R st.visited := hu
          calc unvisitedCount R (st.visited ++ [(nd.state, nd.path)]) *
                  (transitions.length + 1) + (transitions.length + 1) =
              (unvisitedCount R (st.visited ++ [(nd.state, nd.path)]) + 1) *
                  (transitions.length + 1) := by ring
            _ ≤ unvisitedCount R st.visited * (transitions.length + 1) :=
              Nat.mul_le_mul_right _ h1
        linarith

/-- Over a finite transition-closed set of non-success states covering the
frontier, some fuel lets the loop finish with noSolution. -/
theorem searchLoop_terminates {σ : Type} [DecidableEq σ]
    {transitions : List (String × (σ → σ))} {success : σ → Bool}
    {cost : Path → Int} {R : List σ}
    (hclosed : ∀ s ∈ R, ∀ tf ∈ transitions, tf.2 s ∈ R)
    (hfail : ∀ s ∈ R, success s = false) :
    ∀ (n : Nat) (st : SearchState σ), muSearch R transitions st ≤ n →
      (∀ nd ∈ st.frontier, nd.state ∈ R) →
      ∃ fuel, searchLoop transitions success cost fuel st =
        some .noSolution := by
  intro n
  induction n with
  | zero =>
    intro st hmu hFS
    have hfr : st.frontier = [] := by
      have hl : st.frontier.length = 0 := by
        simp only [muSearch] at hmu
        omega
      exact List.length_eq_zero.1 hl
    refine ⟨1, ?_⟩
    have hstep : searchStep transitions success cost st = .done .noSolution := by
      simp [searchStep, hfr, heappop]
    simp [searchLoop, hstep]
  | succ n ih =>
    intro st hmu hFS
    cases hstep : searchStep transitions success cost st with
    | done r =>
      have hr := (step_decreases hclosed hfail hFS).1 r hstep
      subst hr
      exact ⟨1, by simp [searchLoop, hstep]⟩
    | next st' =>
      obtain ⟨hFS', hmu'⟩ := (step_decreases hclosed hfail hFS).2 st' hstep
      obtain ⟨fuel, hf⟩ := ih st' (by omega) hFS'
      exact ⟨fuel + 1, by simp [searchLoop, hstep, hf]⟩

/-- Claim C3 (confirmed): if a finite set R contains the initial state, is
closed under every table transition, and contains no success state, then the
search terminates with the no-solution outcome and never returns a path at
any fuel. -/
theorem C3_finite_no_success_terminates {σ : Type} [DecidableEq σ] (init : σ)
    (transitions : List (String × (σ → σ))) (success : σ → Bool)
    (cost : Path → Int) (R : List σ) (hinit : init ∈ R)
    (hclosed : ∀ s ∈ R, ∀ tf ∈ transitions, tf.2 s ∈ R)
    (hfail : ∀ s ∈ R, success s = false) :
    (∃ fuel, state_search_via_dijkstras fuel init transitions success cost =
      some .noSolution) ∧
    (∀ fuel p, state_search_via_dijkstras fuel init transitions success cost ≠
      some (.found p)) := by
  have hFS : ∀ nd ∈ (⟨[], heappush [] ⟨init, [], cost []⟩⟩ :
      SearchState σ).frontier, nd.state ∈ R := by
    intro nd hnd
    simp only [heappush, List.nil_append, List.mem_singleton] at hnd
    subst hnd
    exact hinit
  obtain ⟨fuel, hf⟩ := searchLoop_terminates hclosed hfail
    (muSearch R transitions ⟨[], heappush [] ⟨init, [], cost []⟩⟩) _ le_rfl hFS
  constructor
  · exact ⟨fuel, hf⟩
  · intro m p hm
    unfold state_search_via_dijkstras at hm
    have h1 := searchLoop_mono fuel (max fuel m) _ hf (le_max_left fuel m)
    have h2 := searchLoop_mono m (max fuel m) _ hm (le_max_right fuel m)
    rw [h1] at h2
    injection h2 with h2
    cases h2

/-- Witness for C3: a toggle system on the finite reachable set 0, 1 with an
unsatisfiable success predicate. -/
theorem C3_finite_no_success_terminates_witness :
    (∃ fuel, state_search_via_dijkstras fuel 0 togTrans neverSuccess witCost =
      some .noSolution) ∧
    (∀ fuel p, state_search_via_dijkstras fuel 0 togTrans neverSuccess
      witCost ≠ some (.found p)) :=
  C3_finite_no_success_terminates 0 togTrans neverSuccess witCost [0, 1]
    (by decide) (by decide) (by decide)

/-- Claim C4 (confirmed): if success holds on the initial state, the search
returns the empty path, for any transition table and any cost function; one
loop iteration suffices. -/
theorem C4_trivial_success {σ : Type} [DecidableEq σ] (init : σ)
    (transitions : List (String × (σ → σ))) (success : σ → Bool)
    (cost : Path → Int) (fuel : Nat) (h : success init = true) :
    state_search_via_dijkstras (fuel + 1) init transitions success cost =
      some (.found []) := by
  simp [state_search_via_dijkstras, searchLoop, searchStep, heappush, heappop,
    popMinAux, visitedMem, h]

/-- Witness for C4 at a concrete instance. -/
theorem C4_trivial_success_witness :
    state_search_via_dijkstras 1 0 cexTrans alwaysSuccess cexCost =
      some (.found []) :=
  C4_trivial_success 0 cexTrans alwaysSuccess cexCost 0 rfl

/-- Claim C5 (confirmed): when the frontier is exhausted the loop finishes
with the distinguished noSolution outcome (the source raises RuntimeError
there), and that outcome is distinct from every successful return, in
particular from the zero-length successful path. -/
theorem C5_no_solution_distinct :
    (∀ (σ : Type) [DecidableEq σ] (transitions : List (String × (σ → σ)))
       (success : σ → Bool) (cost : Path → Int) (st : SearchState σ),
       st.frontier = [] →
       searchStep transitions success cost st = .done .noSolution) ∧
    (∀ p : Path, SearchOutcome.noSolution ≠ SearchOutcome.found p) := by
  constructor
  · intro σ _ transitions success cost st h
    simp [searchStep, h, heappop]
  · intro p h
    cases h

/-- Witness for C5 at a concrete exhausted loop state. -/
theorem C5_no_solution_distinct_witness :
    searchStep cexTrans cexSuccess cexCost c5Empty = .done .noSolution ∧
    SearchOutcome.noSolution ≠ SearchOutcome.found [] :=
  ⟨C5_no_solution_distinct.1 Nat cexTrans cexSuccess cexCost c5Empty rfl,
   C5_no_solution_distinct.2 []⟩

/-- Claim C6 (confirmed): across one continuing loop iteration the visited
dict either stays unchanged or grows by appending the freshly popped state,
and only when that state was not yet recorded; existing entries are never
replaced or removed. -/
theorem C6_visited_once_final {σ : Type} [DecidableEq σ]
    (transitions : List (String × (σ → σ))) (success : σ → Bool)
    (cost : Path → Int) (st st' : SearchState σ)
    (h : searchStep transitions success cost st = .next st') :
    st'.visited = st.visited ∨
    ∃ nd rest, heappop st.frontier = some (nd, rest) ∧
      visitedMem st.visited nd.state = false ∧
      st'.visited = st.visited ++ [(nd.state, nd.path)] := by
  obtain ⟨nd, rest, hp, hcase⟩ := searchStep_next h
  rcases hcase with ⟨hv, rfl⟩ | ⟨hv, hs, rfl⟩
  · exact Or.inl rfl
  · exact Or.inr ⟨nd, rest, hp, hv, rfl⟩

/-- Witness for C6 at a concrete loop iteration that records state 0. -/
theorem C6_visited_once_final_witness :
    c6Next.visited = c6Start.visited ∨
    ∃ nd rest, heappop c6Start.frontier = some (nd, rest) ∧
      visitedMem c6Start.visited nd.state = false ∧
      c6Next.visited = c6Start.visited ++ [(nd.state, nd.path)] :=
  C6_visited_once_final cexTrans cexSuccess cexCost c6Start c6Next (by decide)

/-- Claim C7 (confirmed): the search is deterministic; equal fuel, initial
state, transition table (with its iteration order), success predicate and
cost function give equal results. -/
theorem C7_deterministic {σ : Type} [DecidableEq σ]
    (fuel₁ fuel₂ : Nat) (init₁ init₂ : σ)
    (t₁ t₂ : List (String × (σ → σ))) (success₁ success₂ : σ → Bool)
    (cost₁ cost₂ : Path → Int)
    (hf : fuel₁ = fuel₂) (hi : init₁ = init₂) (ht : t₁ = t₂)
    (hs : success₁ = success₂) (hc : cost₁ = cost₂) :
    state_search_via_dijkstras fuel₁ init₁ t₁ success₁ cost₁ =
      state_search_via_dijkstras fuel₂ init₂ t₂ success₂ cost₂ := by
  subst hf; subst hi; subst ht; subst hs; subst hc; rfl

/-- Witness for C7 at a concrete instance with two equal-cost routes to the
same intermediate state. -/
theorem C7_deterministic_witness :
    state_search_via_dijkstras 10 0 cexTrans cexSuccess cexCost =
      state_search_via_dijkstras 10 0 cexTrans cexSuccess cexCost :=
  C7_deterministic 10 10 0 0 cexTrans cexTrans cexSuccess cexSuccess cexCost
    cexCost rfl rfl rfl rfl rfl

/-- Claim C10 (confirmed): with an empty transition table and a failing
success predicate the search examines only the initial state (the first
iteration records it and pushes nothing) and then reports no-solution. -/
theorem C10_empty_table {σ : Type} [DecidableEq σ] (init : σ)
    (success : σ → Bool) (cost : Path → Int) (h : success init = false) :
    searchStep [] success cost ⟨[], heappush [] ⟨init, [], cost []⟩⟩ =
      .next ⟨[(init, [])], []⟩ ∧
    state_search_via_dijkstras 2 init [] success cost = some .noSolution := by
  constructor
  · simp [searchStep, heappush, heappop, popMinAux, visitedMem, h, expand]
  · simp [state_search_via_dijkstras, searchLoop, searchStep, heappush,
      heappop, popMinAux, visitedMem, h, expand]

/-- Witness for C10 at a concrete instance. -/
theorem C10_empty_table_witness :
    searchStep [] neverSuccess cexCost
        ⟨[], heappush [] ⟨(0 : Nat), [], cexCost []⟩⟩ =
      .next ⟨[(0, [])], []⟩ ∧
    state_search_via_dijkstras 2 0 ([] : List (String × (Nat → Nat)))
      neverSuccess cexCost = some .noSolution :=
  C10_empty_table 0 neverSuccess cexCost rfl

/-- Single-digit naturals print as their digit character. -/
theorem pyStr_lt_ten {n : Nat} (h : n < 10) : pyStr n = [Nat.digitChar n] := by
  simp [pyStr, pyStrCore, h]

/-- With enough fuel the printer core adds at least one character. -/
theorem pyStrCore_length {fuel n : Nat} (acc : List Char) (h : n < fuel) :
    acc.length + 1 ≤ (pyStrCore fuel n acc).length := by
  induction fuel generalizing n acc with
  | zero => omega
  | succ m ih =>
    rw [pyStrCore]
    by_cases h10 : n < 10
    · rw [if_pos h10]
      simp
    · rw [if_neg h10]
      have hdiv : n / 10 < m := by
        have h1 : n / 10 < n := Nat.div_lt_self (by omega) (by omega)
        omega
      have hrec := ih (Nat.digitChar (n % 10) :: acc) hdiv
      simp only [List.length_cons] at hrec
      omega

/-- Naturals of two or more digits print as two or more characters. -/
theorem pyStr_length_two {n : Nat} (h : 10 ≤ n) : 2 ≤ (pyStr n).length := by
  rw [pyStr, pyStrCore, if_neg (by omega)]
  have hdiv : n / 10 < n := Nat.div_lt_self (by omega) (by omega)
  have hrec := pyStrCore_length [Nat.digitChar (n % 10)] hdiv
  simpa using hrec

/-- Printing never yields the empty string. -/
theorem pyStr_length_pos (n : Nat) : 1 ≤ (pyStr n).length := by
  rw [pyStr]
  have hrec := pyStrCore_length ([] : List Char) (Nat.lt_succ_self n)
  simpa using hrec

/-- Consecutive digits below ten print as distinct characters. -/
theorem digitChar_succ_ne {r : Nat} (h : r ≤ 8) :
    Nat.digitChar r ≠ Nat.digitChar (r + 1) := by
  interval_cases r <;> decide

/-- Splitting a list around a two-element window at position lq. -/
theorem take2_decomp (s : List Char) (lq : Nat) :
    s.take lq ++ (s.drop lq).take 2 ++ s.drop (lq + 2) = s := by
  have h1 : (s.drop lq).drop 2 = s.drop (lq + 2) := List.drop_drop 2 lq s
  rw [List.append_assoc, ← h1, List.take_append_drop, List.take_append_drop]

/-- The involution of the x replacement at the level of one character: for
low_radix different from 9 the replacement text is again one character, and
replacing it once more restores the original character. -/
theorem xChar_invol {r : Nat} (hr : r ≠ 9) (c : Char) :
    ∃ c', (if [c] = pyStr (r + 1) then pyStr r
           else if [c] = pyStr r then pyStr (r + 1) else [c]) = [c'] ∧
      (if [c'] = pyStr (r + 1) then pyStr r
       else if [c'] = pyStr r then pyStr (r + 1) else [c']) = [c] := by
  rcases Nat.lt_or_ge r 9 with h9 | h9
  · have hlo : pyStr r = [Nat.digitChar r] := pyStr_lt_ten (by omega)
    have hhi : pyStr (r + 1) = [Nat.digitChar (r + 1)] := pyStr_lt_ten (by omega)
    have hne : Nat.digitChar r ≠ Nat.digitChar (r + 1) :=
      digitChar_succ_ne (by omega)
    rw [hlo, hhi]
    by_cases hc1 : c = Nat.digitChar (r + 1)
    · subst hc1
      refine ⟨Nat.digitChar r, by simp, ?_⟩
      simp [hne]
    · by_cases hc2 : c = Nat.digitChar r
      · subst hc2
        refine ⟨Nat.digitChar (r + 1), by simp [hne], by simp⟩
      · exact ⟨c, by simp [hc1, hc2], by simp [hc1, hc2]⟩
  · have h10 : 10 ≤ r := by omega
    have hlo : 2 ≤ (pyStr r).length := pyStr_length_two h10
    have hhi : 2 ≤ (pyStr (r + 1)).length := pyStr_length_two (by omega)
    have hne1 : [c] ≠ pyStr (r + 1) := by
      intro he
      rw [← he] at hhi
      simp at hhi
    have hne2 : [c] ≠ pyStr r := by
      intro he
      rw [← he] at hlo
      simp at hlo
    exact ⟨c, by rw [if_neg hne1, if_neg hne2],
      by rw [if_neg hne1, if_neg hne2]⟩

/-- A successful x on one basis string needs the indexed position. -/
theorem xStr_lt_of_some {q r : Nat} {s out : List Char}
    (h : xStr q r s = some out) : q < s.length := by
  by_cases hq : q < s.length
  · exact hq
  · rw [xStr, dif_neg hq] at h
    cases h

/-- x on one basis string at position zero. -/
theorem xStr_zero (r : Nat) (c : Char) (rest : List Char) :
    xStr 0 r (c :: rest) = some
      ((if [c] = pyStr (r + 1) then pyStr r
        else if [c] = pyStr r then pyStr (r + 1) else [c]) ++ rest) := by
  rw [xStr, dif_pos (by simp : (0 : Nat) < (c :: rest).length)]
  simp

/-- x on one basis string steps structurally over the leading character. -/
theorem xStr_cons_succ (q r : Nat) (c : Char) (rest : List Char) :
    xStr (q + 1) r (c :: rest) = (xStr q r rest).map (fun t => c :: t) := by
  by_cases h : q < rest.length
  · rw [xStr, dif_pos (by simpa using Nat.succ_lt_succ h), xStr, dif_pos h]
    simp
  · rw [xStr, dif_neg (by simpa using h), xStr, dif_neg h]
    rfl

/-- The involution of x on one basis string, away from low_radix 9, along
with preservation of the string's length. -/
theorem xStr_invol {r : Nat} (hr : r ≠ 9) :
    ∀ (s : List Char) (q : Nat), q < s.length →
      ∃ s1, xStr q r s = some s1 ∧ s1.length = s.length ∧
        xStr q r s1 = some s := by
  intro s
  induction s with
  | nil => intro q hq; simp at hq
  | cons c rest ih =>
    intro q hq
    cases q with
    | zero =>
      obtain ⟨c', hm1, hm2⟩ := xChar_invol hr c
      refine ⟨c' :: rest, ?_, by simp, ?_⟩
      · rw [xStr_zero, hm1]
        rfl
      · rw [xStr_zero, hm2]
        rfl
    | succ q' =>
      have hq' : q' < rest.length := by simpa using hq
      obtain ⟨s1, h1, hlen, h2⟩ := ih q' hq'
      refine ⟨c :: s1, ?_, by simp [hlen], ?_⟩
      · rw [xStr_cons_succ, h1]
        rfl
      · rw [xStr_cons_succ, h2]
        rfl

/-- The involution of x lifted to whole states, away from low_radix 9. -/
theorem xList_invol {r : Nat} (hr : r ≠ 9) :
    ∀ (state : List (List Char)) (q : Nat), (∀ s ∈ state, q < s.length) →
      ∃ st1, xList q r state = some st1 ∧ xList q r st1 = some state := by
  intro state
  induction state with
  | nil => intro q _; exact ⟨[], rfl, rfl⟩
  | cons s ss ih =>
    intro q hlen
    obtain ⟨s1, h1, hslen, h2⟩ :=
      xStr_invol hr s q (hlen s (List.mem_cons_self s ss))
    obtain ⟨ss1, hh1, hh2⟩ := ih q (fun t ht => hlen t (List.mem_cons_of_mem s ht))
    refine ⟨s1 :: ss1, ?_, ?_⟩
    · simp [xList, h1, hh1]
    · simp [xList, h2, hh2]

/-- x preserves the number of basis strings for every low_radix. -/
theorem xList_length {q r : Nat} :
    ∀ {state out : List (List Char)}, xList q r state = some out →
      out.length = state.length := by
  intro state
  induction state with
  | nil =>
    intro out h
    have h' : some ([] : List (List Char)) = some out := h
    injection h' with h'
    subst h'
    rfl
  | cons s ss ih =>
    intro out h
    rw [xList] at h
    cases h1 : xStr q r s with
    | none => rw [h1] at h; cases h
    | some s' =>
      rw [h1] at h
      cases h2 : xList q r ss with
      | none => rw [h2] at h; cases h
      | some ss' =>
        rw [h2] at h
        injection h with h
        subst h
        simp [ih h2]

/-- x preserves each basis string's length, away from low_radix 9. -/
theorem xList_forall2 {q r : Nat} (hr : r ≠ 9) :
    ∀ {state out : List (List Char)}, xList q r state = some out →
      List.Forall₂ (fun a b => b.length = a.length) state out := by
  intro state
  induction state with
  | nil =>
    intro out h
    have h' : some ([] : List (List Char)) = some out := h
    injection h' with h'
    subst h'
    exact List.Forall₂.nil
  | cons s ss ih =>
    intro out h
    rw [xList] at h
    cases h1 : xStr q r s with
    | none => rw [h1] at h; cases h
    | some s' =>
      rw [h1] at h
      cases h2 : xList q r ss with
      | none => rw [h2] at h; cases h
      | some ss' =>
        rw [h2] at h
        injection h with h
        subst h
        have hq := xStr_lt_of_some h1
        obtain ⟨s1, he1, hlen, _⟩ := xStr_invol hr s q hq
        rw [h1] at he1
        injection he1 with he1
        subst he1
        exact List.Forall₂.cons hlen (ih h2)

/-- Evaluation of subswap on one basis string decomposed around a
two-character window at the right position. -/
theorem slice_swap_eval (A mid C : List Char) (lq : Nat) (hA : A.length = lq)
    (r : Nat) (hmidlen : mid.length = 2) :
    subswapStr lq r (A ++ mid ++ C) =
      A ++ (if mid = pyStr r ++ pyStr r then pyStr (r + 1) ++ pyStr (r + 1)
            else if mid = pyStr (r + 1) ++ pyStr (r + 1) then
              pyStr r ++ pyStr r
            else mid) ++ C := by
  have hd : (A ++ mid ++ C).drop lq = mid ++ C := by
    rw [List.append_assoc]
    exact List.drop_left' hA
  have ht2 : ((A ++ mid ++ C).drop lq).take 2 = mid := by
    rw [hd]
    exact List.take_left' hmidlen
  have htA : (A ++ mid ++ C).take lq = A := by
    rw [List.append_assoc]
    exact List.take_left' hA
  have hdC : (A ++ mid ++ C).drop (lq + 2) = C :=
    List.drop_left' (by simp [List.length_append, hA, hmidlen])
  rw [subswapStr, ht2, htA, hdC]

/-- When neither radix pair matches the window, subswap keeps the string. -/
theorem subswapStr_id_of_nomatch {lq r : Nat} {s : List Char}
    (h1 : (s.drop lq).take 2 ≠ pyStr r ++ pyStr r)
    (h2 : (s.drop lq).take 2 ≠ pyStr (r + 1) ++ pyStr (r + 1)) :
    subswapStr lq r s = s := by
  rw [subswapStr, if_neg h1, if_neg h2, take2_decomp]

/-- A full two-character window at position lq forces the prefix before it to
have exactly lq characters. -/
theorem take_length_of_slice2 {s : List Char} {lq : Nat}
    (h : ((s.drop lq).take 2).length = 2) : (s.take lq).length = lq := by
  rw [List.length_take, List.length_drop] at h
  have h2 : 2 ≤ s.length - lq := by
    rcases Nat.le_total 2 (s.length - lq) with hle | hle
    · exact hle
    · rw [min_eq_right hle] at h
      omega
  rw [List.length_take]
  exact min_eq_left (by omega)

/-- The involution of subswap on one basis string, away from low_radix 9,
along with preservation of the string's length. -/
theorem subswapStr_invol {r : Nat} (hr : r ≠ 9) (lq : Nat) (s : List Char) :
    subswapStr lq r (subswapStr lq r s) = s ∧
    (subswapStr lq r s).length = s.length := by
  by_cases hc1 : (s.drop lq).take 2 = pyStr r ++ pyStr r
  · have hlen2 : ((s.drop lq).take 2).length ≤ 2 := by
      rw [List.length_take]
      exact min_le_left 2 _
    have hplen : (pyStr r).length = 1 := by
      have hll := congrArg List.length hc1
      rw [List.length_append] at hll
      have hpos := pyStr_length_pos r
      omega
    have hr8 : r < 9 := by
      by_contra hcon
      have h10 : 10 ≤ r := by omega
      have := pyStr_length_two h10
      omega
    have hlo : pyStr r = [Nat.digitChar r] := pyStr_lt_ten (by omega)
    have hhi : pyStr (r + 1) = [Nat.digitChar (r + 1)] := pyStr_lt_ten (by omega)
    have hne : Nat.digitChar r ≠ Nat.digitChar (r + 1) :=
      digitChar_succ_ne (by omega)
    have hnell : pyStr r ++ pyStr r ≠ pyStr (r + 1) ++ pyStr (r + 1) := by
      rw [hlo, hhi]
      simp [hne]
    have hslice2 : ((s.drop lq).take 2).length = 2 := by
      rw [hc1, hlo]
      rfl
    have hA : (s.take lq).length = lq := take_length_of_slice2 hslice2
    have hs := take2_decomp s lq
    rw [hc1] at hs
    have h1 : subswapStr lq r s =
        s.take lq ++ (pyStr (r + 1) ++ pyStr (r + 1)) ++ s.drop (lq + 2) := by
      rw [subswapStr, if_pos hc1]
    constructor
    · rw [h1, slice_swap_eval (s.take lq) (pyStr (r + 1) ++ pyStr (r + 1))
        (s.drop (lq + 2)) lq hA r (by rw [hhi]; rfl)]
      rw [if_neg (Ne.symm hnell), if_pos rfl]
      exact hs
    · rw [h1]
      have hls := congrArg List.length hs
      simp only [List.length_append] at hls ⊢
      rw [hlo] at hls
      rw [hhi]
      simp at hls ⊢
      omega
  · by_cases hc2 : (s.drop lq).take 2 = pyStr (r + 1) ++ pyStr (r + 1)
    · have hplen : (pyStr (r + 1)).length = 1 := by
        have hll := congrArg List.length hc2
        rw [List.length_append] at hll
        have hpos := pyStr_length_pos (r + 1)
        have hlen2 : ((s.drop lq).take 2).length ≤ 2 := by
          rw [List.length_take]
          exact min_le_left 2 _
        omega
      have hr8 : r < 9 := by
        by_contra hcon
        have h10 : 10 ≤ r + 1 := by omega
        have := pyStr_length_two h10
        omega
      have hlo : pyStr r = [Nat.digitChar r] := pyStr_lt_ten (by omega)
      have hhi : pyStr (r + 1) = [Nat.digitChar (r + 1)] :=
        pyStr_lt_ten (by omega)
      have hne : Nat.digitChar r ≠ Nat.digitChar (r + 1) :=
        digitChar_succ_ne (by omega)
      have hnell : pyStr r ++ pyStr r ≠ pyStr (r + 1) ++ pyStr (r + 1) := by
        rw [hlo, hhi]
        simp [hne]
      have hslice2 : ((s.drop lq).take 2).length = 2 := by
        rw [hc2, hhi]
        rfl
      have hA : (s.take lq).length = lq := take_length_of_slice2 hslice2
      have hs := take2_decomp s lq
      rw [hc2] at hs
      have h1 : subswapStr lq r s =
          s.take lq ++ (pyStr r ++ pyStr r) ++ s.drop (lq + 2) := by
        rw [subswapStr, if_neg (by rw [hc2]; exact Ne.symm hnell), if_pos hc2]
      constructor
      · rw [h1, slice_swap_eval (s.take lq) (pyStr r ++ pyStr r)
          (s.drop (lq + 2)) lq hA r (by rw [hlo]; rfl)]
        rw [if_pos rfl]
        exact hs
      · rw [h1]
        have hls := congrArg List.length hs
        simp only [List.length_append] at hls ⊢
        rw [hhi] at hls
        rw [hlo]
        simp at hls ⊢
        omega
    · have hid : subswapStr lq r s = s := subswapStr_id_of_nomatch hc1 hc2
      rw [hid]
      exact ⟨hid, rfl⟩

/-- The involution of subswap lifted to whole states, away from
low_radix 9. -/
theorem subswap_invol {r : Nat} (hr : r ≠ 9) (lq : Nat)
    (state : List (List Char)) :
    subswap (subswap state lq r) lq r = state := by
  induction state with
  | nil => rfl
  | cons s ss ih =>
    show subswapStr lq r (subswapStr lq r s) :: subswap (subswap ss lq r) lq r
      = s :: ss
    rw [(subswapStr_invol hr lq s).1, ih]

/-- Claim C8 (corrected, low_radix 9 excluded): for every low_radix other
than 9, applying x twice with the same qubit and low_radix returns the
original state whenever the indexed position exists in every basis string,
and applying subswap twice with the same low_qubit and low_radix returns the
original state unconditionally. -/
theorem C8_self_inverse (r : Nat) (hr : r ≠ 9) :
    (∀ (q : Nat) (state : List (List Char)), (∀ s ∈ state, q < s.length) →
      ∃ st1, x state q r = some st1 ∧ x st1 q r = some state) ∧
    (∀ (lq : Nat) (state : List (List Char)),
      subswap (subswap state lq r) lq r = state) := by
  constructor
  · intro q state hlen
    exact xList_invol hr state q hlen
  · intro lq state
    exact subswap_invol hr lq state

/-- Witness for C8 in the qutrit domain at low_radix 0. -/
theorem C8_self_inverse_witness :
    (∃ st1, x [['0', '1']] 0 0 = some st1 ∧ x st1 0 0 = some [['0', '1']]) ∧
    subswap (subswap [['0', '0']] 0 0) 0 0 = [['0', '0']] :=
  ⟨(C8_self_inverse 0 (by decide)).1 0 [['0', '1']] (by decide),
   (C8_self_inverse 0 (by decide)).2 0 [['0', '0']]⟩

/-- Claim C9 (corrected, string lengths need low_radix other than 9): both x
and subswap always preserve the number of basis strings; each output string
keeps the corresponding input string's length whenever low_radix is not 9. -/
theorem C9_shape_preservation :
    (∀ (state : List (List Char)) (q r : Nat) (out : List (List Char)),
      x state q r = some out → out.length = state.length) ∧
    (∀ (state : List (List Char)) (lq r : Nat),
      (subswap state lq r).length = state.length) ∧
    (∀ (state : List (List Char)) (q r : Nat) (out : List (List Char)),
      r ≠ 9 → x state q r = some out →
      List.Forall₂ (fun a b => b.length = a.length) state out) ∧
    (∀ (state : List (List Char)) (lq r : Nat), r ≠ 9 →
      List.Forall₂ (fun a b => b.length = a.length) state
        (subswap state lq r)) := by
  refine ⟨?_, ?_, ?_, ?_⟩
  · intro state q r out h
    exact xList_length h
  · intro state lq r
    simp [subswap]
  · intro state q r out hr h
    exact xList_forall2 hr h
  · intro state lq r hr
    induction state with
    | nil => exact List.Forall₂.nil
    | cons s ss ih => exact List.Forall₂.cons (subswapStr_invol hr lq s).2 ih

/-- Witness for C9 at concrete qutrit states and low_radix 0. -/
theorem C9_shape_preservation_witness :
    ([['1', '0']] : List (List Char)).length = ([['0', '0']] :
      List (List Char)).length ∧
    List.Forall₂ (fun a b => b.length = a.length)
      ([['0', '0']] : List (List Char)) [['1', '0']] := by
  have h : x [['0', '0']] 0 0 = some [['1', '0']] := by decide
  exact ⟨C9_shape_preservation.1 [['0', '0']] 0 0 [['1', '0']] h,
    C9_shape_preservation.2.2.1 [['0', '0']] 0 0 [['1', '0']] (by decide) h⟩

/-- Claim C8 counterexample: with low_radix = 9 the single-digit string 9 is
rewritten to the two-digit string 10, which neither x nor subswap maps back;
the claim's self-inverse property fails as stated even though the indexed
position exists. -/
theorem C8_counterexample :
    (0 < (['9'] : List Char).length) ∧
    x [['9']] 0 9 = some [['1', '0']] ∧
    x [['1', '0']] 0 9 = some [['1', '0']] ∧
    ([['1', '0']] : List (List Char)) ≠ [['9']] ∧
    subswap [['9', '9']] 0 9 = [['1', '0', '1', '0']] ∧
    subswap [['1', '0', '1', '0']] 0 9 = [['1', '0', '1', '0']] ∧
    ([['1', '0', '1', '0']] : List (List Char)) ≠ [['9', '9']] := by
  decide

/-- Claim C9 counterexample: with low_radix = 9 both transitions change the
length of a basis string, so shape preservation fails as stated. -/
theorem C9_counterexample :
    x [['9']] 0 9 = some [['1', '0']] ∧
    (['1', '0'] : List Char).length ≠ (['9'] : List Char).length ∧
    subswap [['9', '9']] 0 9 = [['1', '0', '1', '0']] ∧
    (['1', '0', '1', '0'] : List Char).length ≠ (['9', '9'] : List Char).length := by
  decide

/-- Claim C1 counterexample: the cost function cexCost is monotone
non-decreasing under path extension, yet the search returns the path a, c of
cost 10 although the table path b, c also reaches the success state and costs
only 3; the returned cost is not the minimum over success-reaching paths. -/
theorem C1_counterexample :
    (∀ p t, cexCost p ≤ cexCost (p ++ [t])) ∧
    state_search_via_dijkstras 10 0 cexTrans cexSuccess cexCost =
      some (.found [nmA, nmC]) ∧
    cexCost [nmA, nmC] = 10 ∧
    applyNames cexTrans 0 [nmB, nmC] = some 2 ∧
    cexSuccess 2 = true ∧
    cexCost [nmB, nmC] = 3 ∧
    ¬ cexCost [nmA, nmC] ≤ cexCost [nmB, nmC] := by
  refine ⟨?_, by decide, by decide, by decide, by decide, by decide, by decide⟩
  intro p t
  cases p with
  | nil =>
    simp only [List.nil_append, cexCost]
    split_ifs <;> norm_num
  | cons h rest =>
    simp only [List.cons_append, cexCost, List.length_append,
      List.length_cons, List.length_nil]
    split_ifs <;> push_cast <;> omega

end StateTrans
